import Mathlib

/-!
Verification of the duplicate-avoidance core of `auto_post.py`.

Text is modelled as `List Char` (Python `str` as a sequence of code points).
Python floats are modelled as `ℚ`: every similarity score produced by the
program is a ratio of small integers (shingle-set cardinalities bounded by the
140-character post limit), for which the float comparisons against the 0.80
threshold agree exactly with the rational ones.

Python's builtin `hash` (used by `simhash`) is process-seeded; it is modelled
as an explicit parameter `h : List Char → ℕ` threaded through every function
that fingerprints text, one fixed `h` per run.
-/

set_option maxRecDepth 8192

namespace AutoPost

/-- Python whitespace class for `str.strip`, `str.split` and the regex `\s`
(ASCII part; the claims only involve ASCII whitespace). -/
def pyIsSpace (c : Char) : Bool :=
  c ∈ [' ', '\t', '\n', '\r', '\x0b', '\x0c']

/-- The characters of `string.punctuation + "’“”‘「」『』（）()[]{}"`, the keys of
`_PUNCT_TABLE` in the source (duplicated brackets kept as in the source). -/
def punctChars : List Char :=
  ['!', '"', '#', '$', '%', '&', '\x27', '(', ')', '*', '+', ',', '-', '.', '/',
   ':', ';', '<', '=', '>', '?', '@', '[', '\\', ']', '^', '_', '\x60', '\x7b',
   '|', '\x7d', '~',
   '’', '“', '”', '‘', '「', '」', '『', '』', '（', '）', '(', ')', '[', ']',
   '\x7b', '\x7d']

def isPunct (c : Char) : Bool := c ∈ punctChars

/-- Python `str.lower`, character-wise (ASCII range; the texts in the claims
contain no cased characters outside ASCII). -/
def lowerChar (c : Char) : Char :=
  if 65 ≤ c.toNat ∧ c.toNat ≤ 90 then Char.ofNat (c.toNat + 32) else c

/-- Removes trailing whitespace (the right half of Python `str.strip`). -/
def pyRStrip : List Char → List Char
  | [] => []
  | c :: rest =>
    let r := pyRStrip rest
    if r = [] ∧ pyIsSpace c then [] else c :: r

/-- Python `str.strip()`: drop leading and trailing whitespace. -/
def pyStrip (l : List Char) : List Char := pyRStrip (l.dropWhile pyIsSpace)

/-- `str.translate(_PUNCT_TABLE)`: every punctuation character becomes one
ASCII space. -/
def pyTranslate (l : List Char) : List Char :=
  l.map (fun c => if isPunct c then ' ' else c)

/-- `re.sub(r"\s+", " ", ·)`: each maximal run of whitespace becomes a single
ASCII space. The flag records whether the previous character was whitespace
(i.e. whether we are inside a run whose space was already emitted). -/
def collapseAux : Bool → List Char → List Char
  | _, [] => []
  | prevWs, c :: rest =>
    if pyIsSpace c then
      (if prevWs then collapseAux true rest else ' ' :: collapseAux true rest)
    else c :: collapseAux false rest

def collapseWs (l : List Char) : List Char := collapseAux false l

/-- `normalize` from the source: empty guard, then strip, lowercase,
punctuation-to-space, whitespace collapse — in that order. -/
def normalize (text : List Char) : List Char :=
  if text = [] then []
  else collapseWs (pyTranslate ((pyStrip text).map lowerChar))

/-- `str.split()` with no separator: tokens between whitespace runs, no empty
tokens. `acc` is the current word, reversed. -/
def pySplitAux : List Char → List Char → List (List Char)
  | [], acc => if acc = [] then [] else [acc.reverse]
  | c :: rest, acc =>
    if pyIsSpace c then
      (if acc = [] then pySplitAux rest [] else acc.reverse :: pySplitAux rest [])
    else pySplitAux rest (c :: acc)

def pySplit (l : List Char) : List (List Char) := pySplitAux l []

/-- `" ".join(words)`. -/
def joinSpace : List (List Char) → List Char
  | [] => []
  | [w] => w
  | w :: ws => w ++ ' ' :: joinSpace ws

/-- `sanitize_and_limit` from the source: empty guard, whitespace-join into
one line, hard truncation to `limit` characters. -/
def sanitize_and_limit (text : List Char) (limit : ℕ) : List Char :=
  if text = [] then [] else (joinSpace (pySplit text)).take limit

/-- `char_ngrams` from the source: remove ASCII spaces, then the set of all
length-`n` windows (singleton of the whole string if it is shorter than `n`
and non-empty, empty set if empty). -/
def char_ngrams (s : List Char) (n : ℕ) : Finset (List Char) :=
  let s' := s.filter (fun c => c ≠ ' ')
  if s'.length < n then (if s' = [] then (∅ : Finset (List Char)) else {s'})
  else ((List.range (s'.length - n + 1)).map (fun i => (s'.drop i).take n)).toFinset

/-- `jaccard` from the source, with the two early-0 guards. -/
def jaccard (a b : Finset (List Char)) : ℚ :=
  if a = ∅ ∨ b = ∅ then 0
  else if (a ∩ b).card = 0 then 0
  else ((a ∩ b).card : ℚ) / ((a ∪ b).card : ℚ)

/-- Binary popcount (`int.bit_count`). The fuel argument (initially the number
itself, which bounds the bit length) only makes the recursion structural. -/
def popCountFuel : ℕ → ℕ → ℕ
  | 0, _ => 0
  | fuel + 1, n => if n = 0 then 0 else n % 2 + popCountFuel fuel (n / 2)

def popCount (n : ℕ) : ℕ := popCountFuel n n

/-- `hamming` from the source: popcount of xor. -/
def hamming (a b : ℕ) : ℕ := popCount (a ^^^ b)

/-- `simhash` from the source, with the per-token 64-bit hash `h` explicit.
The source iterates `Counter(tokens)`; every call site passes a shingle set,
so each multiplicity is 1 and the weighted vector entry for bit `i` is the
signed sum below. Bit `i` of the output is set iff that entry is `≥ 0`. -/
def simhash (h : List Char → ℕ) (tokens : Finset (List Char)) : ℕ :=
  (List.range 64).foldl
    (fun out i =>
      if 0 ≤ tokens.sum (fun tok => if ((h tok % 2 ^ 64) >>> i) % 2 = 1 then (1 : ℤ) else -1)
      then out ||| (1 <<< i) else out)
    0

/-- One entry of the dedup index: `{"norm": ..., "simhash": ...}`. -/
structure HistoryRecord where
  norm : List Char
  simhash : ℕ
deriving DecidableEq

/-- The fold step of `most_similar_info`: replace the best candidate on
strictly greater Jaccard, or equal Jaccard and strictly smaller Hamming. -/
def msiStep (grams : Finset (List Char)) (sh : ℕ)
    (best : ℚ × ℕ × Option HistoryRecord) (item : HistoryRecord) :
    ℚ × ℕ × Option HistoryRecord :=
  let jac := jaccard grams (char_ngrams item.norm 2)
  let ham := hamming sh item.simhash
  if best.1 < jac ∨ (jac = best.1 ∧ ham < best.2.1) then (jac, ham, some item) else best

/-- `most_similar_info` from the source: linear scan from initial best
`(0.0, 64, None)`. -/
def most_similar_info (h : List Char → ℕ) (candidate : List Char)
    (index : List HistoryRecord) : ℚ × ℕ × Option HistoryRecord :=
  let norm := normalize candidate
  let grams := char_ngrams norm 2
  let sh := simhash h grams
  index.foldl (msiStep grams sh) ((0 : ℚ), 64, none)

/-- `build_index_from_md`: one record per extracted text. -/
def build_index_from_md (h : List Char → ℕ) (texts : List (List Char)) :
    List HistoryRecord :=
  texts.map (fun t =>
    let norm := normalize t
    ⟨norm, simhash h (char_ngrams norm 2)⟩)

/-- The startup reconciliation step of `main`: append a record for every
normalized markdown text not already known to the index. (Python iterates the
set difference in unspecified order; `dedup`-order is one such order, and the
claims are order-independent.) -/
def reconcile_index (h : List Char → ℕ) (index : List HistoryRecord)
    (mdTexts : List (List Char)) : List HistoryRecord :=
  let known := index.map HistoryRecord.norm
  let newNorms := ((mdTexts.map normalize).dedup).filter (fun n => n ∉ known)
  index ++ newNorms.map (fun n => ⟨n, simhash h (char_ngrams n 2)⟩)

/-- The record `main` appends after a successful post. -/
def postRecord (h : List Char → ℕ) (chosen : List Char) : HistoryRecord :=
  let norm := normalize chosen
  ⟨norm, simhash h (char_ngrams norm 2)⟩

def MAX_ATTEMPTS : ℕ := 5

/-- `JACCARD_TH = 0.80`. -/
def JACCARD_TH : ℚ := 80 / 100

def HAMMING_TH : ℕ := 3

/-- Outcome of the generation loop: `chosen` (empty iff no attempt was
accepted, matching the `if not chosen_text` test in the source), the last
generated text, and the number of attempts executed. -/
structure LoopResult where
  chosen : List Char
  lastText : List Char
  attempts : ℕ
deriving DecidableEq

/-- The `for attempt in range(1, MAX_ATTEMPTS + 1)` loop of `main`. The
external generator is the oracle `gen`, indexed by attempt number (the prompt
and block-term construction do not affect acceptance, only what the oracle is
asked; they are absorbed into `gen`). `remaining` counts iterations left. -/
def genLoopAux (h : List Char → ℕ) (gen : ℕ → List Char)
    (index : List HistoryRecord) : ℕ → ℕ → List Char → LoopResult
  | 0, attempt, last => ⟨[], last, attempt - 1⟩
  | remaining + 1, attempt, _last =>
    let lastText := sanitize_and_limit (gen attempt) 140
    let best := most_similar_info h lastText index
    if best.1 < JACCARD_TH ∧ HAMMING_TH < best.2.1 then ⟨lastText, lastText, attempt⟩
    else genLoopAux h gen index remaining (attempt + 1) lastText

def genLoop (h : List Char → ℕ) (gen : ℕ → List Char)
    (index : List HistoryRecord) : LoopResult :=
  genLoopAux h gen index MAX_ATTEMPTS 1 []

/-- The `variation_patterns` substitution table of the fallback path. All six
patterns are literal strings (no regex metacharacters). -/
def variation_patterns : List (List Char × List Char) :=
  [("実は".toList, "意外にも".toList),
   ("知ってました".toList, "ご存知でした".toList),
   ("信じられない".toList, "驚くべき".toList),
   ("調査によると".toList, "研究結果によると".toList),
   ("データが示す".toList, "統計から見えるのは".toList),
   ("○○%".toList, "約○割".toList)]

/-- `re.sub(old, new, s)` for a literal (metacharacter-free) pattern:
leftmost, non-overlapping replacement of every occurrence. The fuel argument
(initially the length of `s`) only makes the recursion structural; a match
consumes at least one character, so fuel `s.length` never runs out. -/
def replaceAllAux (p r : List Char) : ℕ → List Char → List Char
  | _, [] => []
  | 0, s => s
  | fuel + 1, c :: rest =>
    if p ≠ [] ∧ p.isPrefixOf (c :: rest) then
      r ++ replaceAllAux p r fuel ((c :: rest).drop p.length)
    else c :: replaceAllAux p r fuel rest

def replaceAll (p r s : List Char) : List Char := replaceAllAux p r s.length s

/-- The fallback mutation loop body: apply the sampled substitutions in
order (`random.sample` gives `subs`, two distinct table entries). -/
def applySubs (subs : List (List Char × List Char)) (text : List Char) : List Char :=
  subs.foldl (fun t e => replaceAll e.1 e.2 t) text

/-- The whole generate-or-mutate phase of `main`: run the loop; if no attempt
was accepted, sanitize the mutation of the last text, else keep the accepted
text. -/
def mainGenerate (h : List Char → ℕ) (gen : ℕ → List Char)
    (subs : List (List Char × List Char)) (index : List HistoryRecord) : List Char :=
  let r := genLoop h gen index
  if r.chosen = [] then sanitize_and_limit (applySubs subs r.lastText) 140 else r.chosen

/-- Observable events of the posting phase of `main`, in program order. -/
inductive PostEvent where
  | postCall
  | postSuccess (tweetId : ℕ)
  | postFailure
  | indexAppend
  | indexPersist
deriving DecidableEq

/-- The posting phase of `main` (the final `try/except`): call the poster;
on failure return exit code 4 with the index untouched; on success append the
chosen text's record and persist, then return 0. `postResult` is the outcome
of the external `create_tweet` call (`some id` on success, `none` when it
raises). The event list records the order of the side effects. -/
def postPhase (h : List Char → ℕ) (postResult : Option ℕ)
    (index : List HistoryRecord) (chosen : List Char) :
    ℤ × List HistoryRecord × List PostEvent :=
  match postResult with
  | none => (4, index, [PostEvent.postCall, PostEvent.postFailure])
  | some tid =>
      (0, index ++ [postRecord h chosen],
       [PostEvent.postCall, PostEvent.postSuccess tid,
        PostEvent.indexAppend, PostEvent.indexPersist])

/-- Substring occurrence test (does `p` occur contiguously in `s`?), used to
state when a substitution pattern "matches". -/
def containsSeq (p : List Char) : List Char → Bool
  | [] => p.isEmpty
  | c :: rest => p.isPrefixOf (c :: rest) || containsSeq p rest

/-- The lexicographic "at least as good" order on (Jaccard, Hamming) pairs
used by the nearest-neighbor scan: higher Jaccard first, lower Hamming as the
tie break. -/
def BetterEq (p q : ℚ × ℕ) : Prop := q.1 < p.1 ∨ (p.1 = q.1 ∧ p.2 ≤ q.2)

/-- No two adjacent whitespace characters (used to characterize the output of
the whitespace collapse). -/
def noTwoWs : List Char → Bool
  | [] => true
  | [_] => true
  | a :: b :: l => (!(pyIsSpace a && pyIsSpace b)) && noTwoWs (b :: l)

/-- The binding invariant of C9: a record's fingerprint is the SimHash of the
2-gram shingles of its own `norm` field (for the run's token hash `h`). -/
def recordWellFormed (h : List Char → ℕ) (r : HistoryRecord) : Prop :=
  r.simhash = simhash h (char_ngrams r.norm 2)

/-- A marker character for a substitution-table entry `e`: a non-whitespace
character occurring in `e`'s pattern, in no replacement string of the table,
and in no other entry's pattern. Replacing an occurrence of `e.1` strictly
decreases the count of such a character, and no other table substitution can
restore it. -/
def patternMarker (e : List Char × List Char) (χ : Char) : Prop :=
  χ ∈ e.1 ∧ pyIsSpace χ = false
  ∧ (∀ e' ∈ variation_patterns, χ ∉ e'.2)
  ∧ (∀ e' ∈ variation_patterns, e' ≠ e → χ ∉ e'.1)

section BasicLemmas

/-- Jaccard of a non-empty set with itself is 1. -/
theorem jaccard_self (a : Finset (List Char)) (ha : a ≠ ∅) : jaccard a a = 1 := by
  have hcard : a.card ≠ 0 := by simpa [← Finset.card_eq_zero] using ha
  unfold jaccard
  rw [if_neg (by simp [ha]), Finset.inter_self, Finset.union_self,
    if_neg hcard, div_self (by exact_mod_cast hcard)]

/-- Jaccard with an empty left argument is 0 (first guard of the source). -/
theorem jaccard_empty_left (b : Finset (List Char)) : jaccard ∅ b = 0 := by
  unfold jaccard
  rw [if_pos (Or.inl rfl)]

/-- `hamming x x = 0`: xor with itself is zero, whose popcount is zero. -/
theorem hamming_self (a : ℕ) : hamming a a = 0 := by
  unfold hamming
  rw [Nat.xor_self]
  rfl

/-- The SimHash of an empty shingle collection is all-ones, whatever the
token hash: every vector entry is the empty sum 0 and `0 ≥ 0` sets the bit. -/
theorem simhash_empty (h : List Char → ℕ) : simhash h ∅ = 2 ^ 64 - 1 := by
  unfold simhash
  simp only [Finset.sum_empty, le_refl, if_pos]
  decide

/-- The shingle set of the empty string is empty. -/
theorem char_ngrams_nil : char_ngrams [] 2 = ∅ := by decide

/-- `char_ngrams` depends on its input only through the space-free form. -/
theorem char_ngrams_congr (s t : List Char) (n : ℕ)
    (hst : s.filter (fun c => c ≠ ' ') = t.filter (fun c => c ≠ ' ')) :
    char_ngrams s n = char_ngrams t n := by
  unfold char_ngrams
  rw [hst]

/-- A text with at least one non-space character has a non-empty shingle
set. -/
theorem char_ngrams_ne_empty (s : List Char) (n : ℕ)
    (hs : s.filter (fun c => c ≠ ' ') ≠ []) : char_ngrams s n ≠ ∅ := by
  unfold char_ngrams
  dsimp only
  split_ifs with h1
  · exact Finset.singleton_ne_empty _
  · intro hemp
    rw [List.toFinset_eq_empty_iff, List.map_eq_nil_iff, List.range_eq_nil] at hemp
    omega

/-- Against a one-record index whose record's shingles coincide with the
candidate's, the query returns `(1.0, 0, the record)`. -/
theorem msi_single_grams_equal (h : List Char → ℕ) (cand s : List Char)
    (hG : char_ngrams (normalize cand) 2 = char_ngrams s 2)
    (hne : char_ngrams s 2 ≠ ∅) :
    most_similar_info h cand [⟨s, simhash h (char_ngrams s 2)⟩]
      = (1, 0, some ⟨s, simhash h (char_ngrams s 2)⟩) := by
  have hdef : most_similar_info h cand [⟨s, simhash h (char_ngrams s 2)⟩]
      = msiStep (char_ngrams (normalize cand) 2)
          (simhash h (char_ngrams (normalize cand) 2))
          ((0 : ℚ), 64, none) ⟨s, simhash h (char_ngrams s 2)⟩ := rfl
  rw [hdef, hG]
  simp only [msiStep]
  rw [jaccard_self _ hne, hamming_self]
  rw [if_pos (Or.inl (by norm_num))]

end BasicLemmas

section NearestNeighbor

/-- `BetterEq` is reflexive. -/
theorem betterEq_refl (p : ℚ × ℕ) : BetterEq p p := Or.inr ⟨rfl, le_refl _⟩

/-- `BetterEq` is transitive. -/
theorem betterEq_trans {p q r : ℚ × ℕ} (h1 : BetterEq p q) (h2 : BetterEq q r) :
    BetterEq p r := by
  rcases h1 with h1 | ⟨h1a, h1b⟩ <;> rcases h2 with h2 | ⟨h2a, h2b⟩
  · exact Or.inl (h2.trans h1)
  · exact Or.inl (h2a ▸ h1)
  · exact Or.inl (h1a ▸ h2)
  · exact Or.inr ⟨h1a.trans h2a, h1b.trans h2b⟩

/-- The (Jaccard, Hamming) pair a record scores against the candidate's
shingle set `G` and fingerprint `sh`. -/
def itemPair (G : Finset (List Char)) (sh : ℕ) (it : HistoryRecord) : ℚ × ℕ :=
  (jaccard G (char_ngrams it.norm 2), hamming sh it.simhash)

/-- One scan step never worsens the running best. -/
theorem msiStep_better (G : Finset (List Char)) (sh : ℕ)
    (b : ℚ × ℕ × Option HistoryRecord) (it : HistoryRecord) :
    BetterEq ((msiStep G sh b it).1, (msiStep G sh b it).2.1) (b.1, b.2.1) := by
  simp only [msiStep]
  split
  · next hc =>
    rcases hc with hc | ⟨hc1, hc2⟩
    · exact Or.inl hc
    · exact Or.inr ⟨hc1, le_of_lt hc2⟩
  · exact betterEq_refl _

/-- After one scan step the running best is at least as good as the item
just scanned. -/
theorem msiStep_dominates_item (G : Finset (List Char)) (sh : ℕ)
    (b : ℚ × ℕ × Option HistoryRecord) (it : HistoryRecord) :
    BetterEq ((msiStep G sh b it).1, (msiStep G sh b it).2.1) (itemPair G sh it) := by
  simp only [msiStep, itemPair]
  split
  · exact betterEq_refl _
  · next hc =>
    push_neg at hc
    rcases lt_or_eq_of_le hc.1 with hlt | heq
    · exact Or.inl hlt
    · exact Or.inr ⟨heq.symm, hc.2 heq⟩

/-- The scan fold never worsens the running best. -/
theorem msiFold_better (G : Finset (List Char)) (sh : ℕ) :
    ∀ (l : List HistoryRecord) (b : ℚ × ℕ × Option HistoryRecord),
      BetterEq ((l.foldl (msiStep G sh) b).1, (l.foldl (msiStep G sh) b).2.1) (b.1, b.2.1)
  | [], _ => betterEq_refl _
  | x :: l, b => by
    rw [List.foldl_cons]
    exact betterEq_trans (msiFold_better G sh l (msiStep G sh b x)) (msiStep_better G sh b x)

/-- The scan fold dominates every scanned item. -/
theorem msiFold_dominates (G : Finset (List Char)) (sh : ℕ)
    (l : List HistoryRecord) (b : ℚ × ℕ × Option HistoryRecord)
    (it : HistoryRecord) (hit : it ∈ l) :
    BetterEq ((l.foldl (msiStep G sh) b).1, (l.foldl (msiStep G sh) b).2.1)
      (itemPair G sh it) := by
  induction l generalizing b with
  | nil => cases hit
  | cons x l ih =>
    rw [List.foldl_cons]
    rcases List.mem_cons.mp hit with rfl | hmem
    · exact betterEq_trans (msiFold_better G sh l (msiStep G sh b it))
        (msiStep_dominates_item G sh b it)
    · exact ih _ hmem

/-- The scan fold either leaves the accumulator untouched or returns the
exact score pair of some scanned item together with that item. -/
theorem msiFold_provenance (G : Finset (List Char)) (sh : ℕ) :
    ∀ (l : List HistoryRecord) (b : ℚ × ℕ × Option HistoryRecord),
      l.foldl (msiStep G sh) b = b
      ∨ ∃ it ∈ l, l.foldl (msiStep G sh) b
          = ((itemPair G sh it).1, (itemPair G sh it).2, some it)
  | [], b => Or.inl rfl
  | x :: l, b => by
    rw [List.foldl_cons]
    by_cases hc : b.1 < jaccard G (char_ngrams x.norm 2)
        ∨ (jaccard G (char_ngrams x.norm 2) = b.1 ∧ hamming sh x.simhash < b.2.1)
    · have hstep : msiStep G sh b x
          = ((itemPair G sh x).1, (itemPair G sh x).2, some x) := by
        simp only [msiStep, itemPair]
        rw [if_pos hc]
      rcases msiFold_provenance G sh l (msiStep G sh b x) with heq | ⟨it, hmem, heq⟩
      · exact Or.inr ⟨x, List.mem_cons_self x l, by rw [heq, hstep]⟩
      · exact Or.inr ⟨it, List.mem_cons_of_mem x hmem, heq⟩
    · have hstep : msiStep G sh b x = b := by
        simp only [msiStep]
        rw [if_neg hc]
      rw [hstep]
      rcases msiFold_provenance G sh l b with heq | ⟨it, hmem, heq⟩
      · exact Or.inl heq
      · exact Or.inr ⟨it, List.mem_cons_of_mem x hmem, heq⟩

end NearestNeighbor

/-- C2: the nearest-neighbor query scans every record; its result dominates
every record's (Jaccard, Hamming) pair in the lexicographic order (higher
Jaccard first, then lower Hamming); a record replaces the best only on
strictly greater Jaccard or equal Jaccard with strictly smaller Hamming, so
when no record is returned the result is still the initial best
`(0.0, 64, none)`, and when a record is returned it lies in the index and the
returned score pair is exactly that record's pair. -/
theorem claim2_nearest_neighbor_scan (h : List Char → ℕ) (cand : List Char)
    (index : List HistoryRecord) :
    (∀ it ∈ index,
      BetterEq ((most_similar_info h cand index).1, (most_similar_info h cand index).2.1)
        (itemPair (char_ngrams (normalize cand) 2)
          (simhash h (char_ngrams (normalize cand) 2)) it))
    ∧ ((most_similar_info h cand index).2.2 = none →
        most_similar_info h cand index = ((0 : ℚ), 64, none))
    ∧ (∀ it, (most_similar_info h cand index).2.2 = some it →
        it ∈ index
        ∧ (most_similar_info h cand index).1
            = (itemPair (char_ngrams (normalize cand) 2)
                (simhash h (char_ngrams (normalize cand) 2)) it).1
        ∧ (most_similar_info h cand index).2.1
            = (itemPair (char_ngrams (normalize cand) 2)
                (simhash h (char_ngrams (normalize cand) 2)) it).2) := by
  set G := char_ngrams (normalize cand) 2 with hG
  set sh := simhash h G with hsh
  have hdef : most_similar_info h cand index
      = index.foldl (msiStep G sh) ((0 : ℚ), 64, none) := rfl
  refine ⟨?_, ?_, ?_⟩
  · intro it hit
    rw [hdef]
    exact msiFold_dominates G sh index _ it hit
  · intro hnone
    rw [hdef]
    rcases msiFold_provenance G sh index ((0 : ℚ), 64, none) with heq | ⟨it, _, heq⟩
    · exact heq
    · rw [hdef] at hnone
      rw [heq] at hnone
      cases hnone
  · intro it hsome
    rw [hdef] at hsome ⊢
    rcases msiFold_provenance G sh index ((0 : ℚ), 64, none) with heq | ⟨it', hmem, heq⟩
    · rw [heq] at hsome
      cases hsome
    · rw [heq] at hsome ⊢
      have : it' = it := by
        simpa using hsome
      subst this
      exact ⟨hmem, rfl, rfl⟩

/-- Witness for C2 at a concrete input: a one-record index, the scan result
dominating that record's score pair. -/
theorem claim2_witness :
    BetterEq ((most_similar_info (fun _ => 0) ['a'] [⟨['a'], 0⟩]).1,
        (most_similar_info (fun _ => 0) ['a'] [⟨['a'], 0⟩]).2.1)
      (itemPair (char_ngrams (normalize ['a']) 2)
        (simhash (fun _ => 0) (char_ngrams (normalize ['a']) 2)) ⟨['a'], 0⟩) :=
  (claim2_nearest_neighbor_scan (fun _ => 0) ['a'] [⟨['a'], 0⟩]).1 ⟨['a'], 0⟩
    (by simp)

/-- C3: the posting phase appends the chosen text's record and re-persists
only after the poster reports success: on failure the exit code is 4, the
index is returned unchanged and the trace holds no append/persist event; in
every trace, any `indexAppend` event is strictly preceded by a `postSuccess`
event. -/
theorem claim3_append_only_after_post_success (h : List Char → ℕ)
    (index : List HistoryRecord) (chosen : List Char) :
    (postPhase h none index chosen
        = (4, index, [PostEvent.postCall, PostEvent.postFailure]))
    ∧ (∀ tid, postPhase h (some tid) index chosen
        = (0, index ++ [postRecord h chosen],
           [PostEvent.postCall, PostEvent.postSuccess tid,
            PostEvent.indexAppend, PostEvent.indexPersist]))
    ∧ (∀ res i, (postPhase h res index chosen).2.2.get? i = some PostEvent.indexAppend →
        ∃ j tid, j < i ∧ (postPhase h res index chosen).2.2.get? j
            = some (PostEvent.postSuccess tid)) := by
  refine ⟨rfl, fun _ => rfl, ?_⟩
  intro res i hi
  cases res with
  | none =>
    match i, hi with
    | 0, hi => cases hi
    | 1, hi => cases hi
    | n + 2, hi => cases hi
  | some tid =>
    match i, hi with
    | 0, hi => cases hi
    | 1, hi => cases hi
    | 2, _ => exact ⟨1, tid, by omega, rfl⟩
    | 3, hi => cases hi
    | n + 4, hi => cases hi

/-- Witness for C3 at a concrete input: in the success trace, the append at
position 2 is preceded by the success event. -/
theorem claim3_witness :
    ∃ j tid, j < 2
      ∧ (postPhase (fun _ => 0) (some 7) [] []).2.2.get? j
          = some (PostEvent.postSuccess tid) :=
  (claim3_append_only_after_post_success (fun _ => 0) [] []).2.2 (some 7) 2 rfl

/-- C4: the source computes `hash(tok)` with Python's builtin, seed-randomized
string hash, so the fingerprint of one and the same shingle set differs
between two runs whose seeds induce different token hashes: the claim's
"same value under different string-hash seeds" fails on the code. Two
evaluations of `simhash` on the shingle set of the candidate `"ab"`, under
two possible token-hash functions, disagree. -/
theorem claim4_simhash_depends_on_token_hash :
    simhash (fun _ => 0) (char_ngrams (normalize "ab".toList) 2)
      ≠ simhash (fun _ => 2 ^ 64 - 1) (char_ngrams (normalize "ab".toList) 2) := by
  decide

/-- C10: `simhash` of an empty shingle collection is the all-ones word
`2^64 - 1` for every token hash; two empty-shingle fingerprints are at
Hamming distance 0; hence a candidate normalizing to the empty string is
rejected whenever the index holds a (well-formed) record with empty
normalized text — the Hamming half of the acceptance test fails. -/
theorem claim10_empty_shingles_rejected (h : List Char → ℕ) (cand : List Char)
    (index : List HistoryRecord) (r : HistoryRecord)
    (hcand : normalize cand = []) (hr : r ∈ index) (hnorm : r.norm = [])
    (hwf : recordWellFormed h r) :
    simhash h (∅ : Finset (List Char)) = 2 ^ 64 - 1
    ∧ hamming (simhash h ∅) r.simhash = 0
    ∧ ¬ ((most_similar_info h cand index).1 < JACCARD_TH
          ∧ HAMMING_TH < (most_similar_info h cand index).2.1) := by
  have hrs : r.simhash = simhash h ∅ := by
    rw [hwf, hnorm, char_ngrams_nil]
  refine ⟨simhash_empty h, by rw [hrs, hamming_self], ?_⟩
  have hGe : char_ngrams (normalize cand) 2 = ∅ := by
    rw [hcand, char_ngrams_nil]
  have hdef : most_similar_info h cand index
      = index.foldl
          (msiStep (char_ngrams (normalize cand) 2)
            (simhash h (char_ngrams (normalize cand) 2)))
          ((0 : ℚ), 64, none) := rfl
  rw [hdef, hGe] at *
  set sh := simhash h (∅ : Finset (List Char)) with hshdef
  set res := index.foldl (msiStep ∅ sh) ((0 : ℚ), 64, none) with hres
  have hj : res.1 = 0 := by
    rcases msiFold_provenance ∅ sh index ((0 : ℚ), 64, none) with heq | ⟨it, _, heq⟩
    · rw [hres, heq]
    · rw [hres, heq]
      simp [itemPair, jaccard_empty_left]
  have hdom := msiFold_dominates ∅ sh index ((0 : ℚ), 64, none) r hr
  have hpair : itemPair ∅ sh r = (0, 0) := by
    unfold itemPair
    rw [jaccard_empty_left, hrs, hamming_self]
  rw [hpair, ← hres] at hdom
  have hm : res.2.1 = 0 := by
    rcases hdom with hlt | ⟨_, hle⟩
    · rw [hj] at hlt
      exact absurd hlt (by norm_num)
    · omega
  rintro ⟨_, h2⟩
  rw [hm] at h2
  exact absurd h2 (by norm_num [HAMMING_TH])

/-- Witness for C10 at a concrete input: candidate `" "` (normalizes to the
empty string) against a one-record index whose record has empty normalized
text. -/
theorem claim10_witness :
    simhash (fun _ => 0) (∅ : Finset (List Char)) = 2 ^ 64 - 1
    ∧ hamming (simhash (fun _ => 0) ∅)
        (HistoryRecord.mk [] (simhash (fun _ => 0) (char_ngrams [] 2))).simhash = 0
    ∧ ¬ ((most_similar_info (fun _ => 0) [' ']
            [⟨[], simhash (fun _ => 0) (char_ngrams [] 2)⟩]).1 < JACCARD_TH
          ∧ HAMMING_TH < (most_similar_info (fun _ => 0) [' ']
            [⟨[], simhash (fun _ => 0) (char_ngrams [] 2)⟩]).2.1) :=
  claim10_empty_shingles_rejected (fun _ => 0) [' ']
    [⟨[], simhash (fun _ => 0) (char_ngrams [] 2)⟩]
    ⟨[], simhash (fun _ => 0) (char_ngrams [] 2)⟩
    (by decide) (by simp) rfl rfl

/-- C7 counterexample: the candidate `"AI Technology is changing FAST!!"`
does NOT normalize to a string identical to the stored
`"ai technology is changing fast"` — the `!!` become spaces after the strip
already happened, leaving a trailing space. -/
theorem claim7_normalize_not_identical :
    normalize "AI Technology is changing FAST!!".toList
      ≠ "ai technology is changing fast".toList := by
  decide

/-- C7 amended: the candidate normalizes to the stored text plus one trailing
space; the shingle sets of the two are nevertheless identical (spaces are
removed before shingling), so against a one-record index holding the stored
text the query scores Jaccard 1.0 and Hamming 0 and the duplicate test
rejects the candidate. -/
theorem claim7_trailing_space_still_rejected (h : List Char → ℕ) :
    normalize "AI Technology is changing FAST!!".toList
      = "ai technology is changing fast".toList ++ [' ']
    ∧ char_ngrams (normalize "AI Technology is changing FAST!!".toList) 2
        = char_ngrams "ai technology is changing fast".toList 2
    ∧ most_similar_info h "AI Technology is changing FAST!!".toList
          [⟨"ai technology is changing fast".toList,
            simhash h (char_ngrams "ai technology is changing fast".toList 2)⟩]
        = (1, 0, some ⟨"ai technology is changing fast".toList,
            simhash h (char_ngrams "ai technology is changing fast".toList 2)⟩)
    ∧ ¬ ((1 : ℚ) < JACCARD_TH ∧ HAMMING_TH < 0) := by
  have hGs : char_ngrams (normalize "AI Technology is changing FAST!!".toList) 2
      = char_ngrams "ai technology is changing fast".toList 2 :=
    char_ngrams_congr _ _ 2 (by decide)
  have hne : char_ngrams "ai technology is changing fast".toList 2 ≠ ∅ :=
    char_ngrams_ne_empty _ 2 (by decide)
  refine ⟨by decide, hGs, msi_single_grams_equal h _ _ hGs hne, ?_⟩
  · rintro ⟨h1, _⟩
    rw [JACCARD_TH] at h1
    exact absurd h1 (by norm_num)

/-- A filter and its complementary filter split a list's length. -/
theorem length_filter_add_length_filter_not {α : Type} (p : α → Bool) (l : List α) :
    (l.filter p).length + (l.filter (fun a => !(p a))).length = l.length := by
  induction l with
  | nil => rfl
  | cons x l ih =>
    by_cases hx : p x = true <;>
      simp [List.filter_cons, hx, ← ih] <;> omega

/-- A duplicate-free list all of whose elements equal `a` has at most one
element. -/
theorem nodup_const_length_le_one {α : Type} (l : List α) (a : α)
    (hn : l.Nodup) (hall : ∀ x ∈ l, x = a) : l.length ≤ 1 := by
  match l with
  | [] => simp
  | [_] => simp
  | x :: y :: _ =>
    have hx : x = a := hall x (by simp)
    have hy : y = a := hall y (by simp)
    rw [List.nodup_cons] at hn
    exact absurd (by simp [hx, hy]) hn.1

/-- C9: every record the program creates — by markdown rebuild, by startup
reconciliation, or by the post-success append — has its fingerprint equal to
the SimHash of the 2-gram shingles of its own normalized text; and no
operation mutates an existing record: reconciliation and the posting phase
leave the first `index.length` records exactly as they were. -/
theorem claim9_record_invariant (h : List Char → ℕ) (texts : List (List Char))
    (index : List HistoryRecord) (mdTexts : List (List Char)) (chosen : List Char)
    (hidx : ∀ r ∈ index, recordWellFormed h r) :
    (∀ r ∈ build_index_from_md h texts, recordWellFormed h r)
    ∧ (∀ r ∈ reconcile_index h index mdTexts, recordWellFormed h r)
    ∧ recordWellFormed h (postRecord h chosen)
    ∧ (reconcile_index h index mdTexts).take index.length = index
    ∧ (∀ res, (postPhase h res index chosen).2.1.take index.length = index) := by
  refine ⟨?_, ?_, ?_, ?_, ?_⟩
  · intro r hr
    obtain ⟨t, _, rfl⟩ := List.mem_map.mp hr
    simp only [recordWellFormed]
  · intro r hr
    unfold reconcile_index at hr
    rcases List.mem_append.mp hr with hmem | hmem
    · exact hidx r hmem
    · obtain ⟨n, _, rfl⟩ := List.mem_map.mp hmem
      simp only [recordWellFormed]
  · simp only [recordWellFormed, postRecord]
  · show (index ++ _).take index.length = index
    exact List.take_left index _
  · intro res
    cases res with
    | none => exact List.take_length index
    | some tid => exact List.take_left index _

/-- Witness for C9 at a concrete input: the post-success record of the text
`"a"` satisfies the fingerprint invariant. -/
theorem claim9_witness :
    recordWellFormed (fun _ => 0) (postRecord (fun _ => 0) ['a']) :=
  (claim9_record_invariant (fun _ => 0) [] [] [] ['a'] (by simp)).2.2.1

/-- The reconciled index's normalized texts stay duplicate-free when the
loaded index's were. -/
theorem reconcile_norms_nodup (h : List Char → ℕ) (index : List HistoryRecord)
    (mdTexts : List (List Char))
    (hnd : (index.map HistoryRecord.norm).Nodup) :
    ((reconcile_index h index mdTexts).map HistoryRecord.norm).Nodup := by
  have hmapnorm : (reconcile_index h index mdTexts).map HistoryRecord.norm
      = index.map HistoryRecord.norm
        ++ ((mdTexts.map normalize).dedup).filter
            (fun n => n ∉ index.map HistoryRecord.norm) := by
    unfold reconcile_index
    rw [List.map_append, List.map_map]
    congr 1
    exact List.map_id _
  rw [hmapnorm, List.nodup_append]
  refine ⟨hnd, (List.nodup_dedup _).filter _, ?_⟩
  intro a ha hafilt
  have hnot := (List.mem_filter.mp hafilt).2
  simp only [decide_not, Bool.not_eq_true', decide_eq_false_iff_not] at hnot
  exact hnot ha

/-- The reconciled index's length is the old length plus the number of
distinct normalized log texts not already known. -/
theorem reconcile_length (h : List Char → ℕ) (index : List HistoryRecord)
    (mdTexts : List (List Char)) :
    (reconcile_index h index mdTexts).length
      = index.length
        + (((mdTexts.map normalize).dedup).filter
            (fun n => n ∉ index.map HistoryRecord.norm)).length := by
  unfold reconcile_index
  rw [List.length_append, List.length_map]

/-- If exactly two distinct texts of a duplicate-free list fall in a
two-element list `known`, then `known` has no duplicate. -/
theorem known_nodup_of_two_matches (L known : List (List Char))
    (hLn : L.Nodup) (hklen : known.length = 2)
    (hm : (L.filter (fun n => n ∈ known)).length = 2) : known.Nodup := by
  match known, hklen, hm with
  | [n1, n2], _, hm =>
    rw [List.nodup_cons]
    refine ⟨?_, List.nodup_singleton n2⟩
    intro hmem
    have hn12 : n1 = n2 := by simpa using hmem
    have hle : (L.filter (fun n => n ∈ ([n1, n2] : List (List Char)))).length ≤ 1 := by
      refine nodup_const_length_le_one _ n1 (hLn.filter _) ?_
      intro x hx
      have hx2 := (List.mem_filter.mp hx).2
      simp only [decide_eq_true_eq, List.mem_cons, List.mem_singleton,
        List.not_mem_nil, or_false] at hx2
      rcases hx2 with rfl | rfl
      · rfl
      · exact hn12.symm
    rw [hm] at hle
    omega

/-- C8: reconciliation appends exactly the normalized log texts not already
present: with 2 loaded records, 5 distinct normalized log texts of which
exactly 2 match existing records, the reconciled index has exactly 5 records
and no two of them share a normalized text. -/
theorem claim8_reconcile_counts (h : List Char → ℕ) (index : List HistoryRecord)
    (mdTexts : List (List Char))
    (hlen : index.length = 2)
    (hdistinct : ((mdTexts.map normalize).dedup).length = 5)
    (hmatch : (((mdTexts.map normalize).dedup).filter
        (fun n => n ∈ index.map HistoryRecord.norm)).length = 2) :
    (reconcile_index h index mdTexts).length = 5
    ∧ ((reconcile_index h index mdTexts).map HistoryRecord.norm).Nodup := by
  have hknown_len : (index.map HistoryRecord.norm).length = 2 := by
    rw [List.length_map, hlen]
  constructor
  · have hsplit := length_filter_add_length_filter_not
      (fun n => n ∈ index.map HistoryRecord.norm) ((mdTexts.map normalize).dedup)
    have hflip : (fun n : List Char => !(decide (n ∈ index.map HistoryRecord.norm)))
        = (fun n : List Char => (decide (n ∉ index.map HistoryRecord.norm) : Bool)) := by
      funext n
      rw [decide_not]
    rw [hflip, hmatch, hdistinct] at hsplit
    rw [reconcile_length, hlen]
    omega
  · exact reconcile_norms_nodup h index mdTexts
      (known_nodup_of_two_matches _ _ (List.nodup_dedup _) hknown_len hmatch)

/-- Witness for C8 at a concrete input: two records `"a"`, `"b"`, log texts
`a b c d e`. -/
theorem claim8_witness :
    (reconcile_index (fun _ => 0) [⟨['a'], 0⟩, ⟨['b'], 0⟩]
        [['a'], ['b'], ['c'], ['d'], ['e']]).length = 5
    ∧ ((reconcile_index (fun _ => 0) [⟨['a'], 0⟩, ⟨['b'], 0⟩]
        [['a'], ['b'], ['c'], ['d'], ['e']]).map HistoryRecord.norm).Nodup :=
  claim8_reconcile_counts (fun _ => 0) [⟨['a'], 0⟩, ⟨['b'], 0⟩]
    [['a'], ['b'], ['c'], ['d'], ['e']] rfl (by decide) (by decide)

/-- Witness for C7 at its (only) concrete instantiation of the run hash. -/
theorem claim7_witness :
    normalize "AI Technology is changing FAST!!".toList
      = "ai technology is changing fast".toList ++ [' '] :=
  (claim7_trailing_space_still_rejected (fun _ => 0)).1

/-- C1: with an empty History Index the nearest-neighbor query returns
Jaccard 0.0, Hamming 64 and no record; the acceptance test
`jaccard < 0.80 ∧ hamming > 3` holds on that result, and the generation loop
accepts on attempt 1, returning the first sanitized candidate. -/
theorem claim1_empty_index_accepts_first_attempt
    (h : List Char → ℕ) (cand : List Char) (gen : ℕ → List Char) :
    most_similar_info h cand [] = ((0 : ℚ), 64, none)
    ∧ ((most_similar_info h cand []).1 < JACCARD_TH
        ∧ HAMMING_TH < (most_similar_info h cand []).2.1)
    ∧ genLoop h gen []
        = ⟨sanitize_and_limit (gen 1) 140, sanitize_and_limit (gen 1) 140, 1⟩ := by
  have hmsi : ∀ c : List Char, most_similar_info h c [] = ((0 : ℚ), 64, none) := by
    intro c; rfl
  refine ⟨hmsi cand, ?_, ?_⟩
  · rw [hmsi cand]
    constructor
    · norm_num [JACCARD_TH]
    · norm_num [HAMMING_TH]
  · show genLoopAux h gen [] MAX_ATTEMPTS 1 [] = _
    rw [show MAX_ATTEMPTS = 4 + 1 from rfl]
    rw [genLoopAux]
    rw [hmsi (sanitize_and_limit (gen 1) 140)]
    rw [if_pos]
    constructor
    · norm_num [JACCARD_TH]
    · norm_num [HAMMING_TH]

section NormalizeIdempotence

/-- Unfolding equation: whitespace head, inside a run. -/
theorem collapseAux_cons_ws_true (x : Char) (xs : List Char)
    (hx : pyIsSpace x = true) :
    collapseAux true (x :: xs) = collapseAux true xs := by
  simp [collapseAux, hx]

/-- Unfolding equation: whitespace head, starting a run. -/
theorem collapseAux_cons_ws_false (x : Char) (xs : List Char)
    (hx : pyIsSpace x = true) :
    collapseAux false (x :: xs) = ' ' :: collapseAux true xs := by
  simp [collapseAux, hx]

/-- Unfolding equation: non-whitespace head. -/
theorem collapseAux_cons_nonws (fl : Bool) (x : Char) (xs : List Char)
    (hx : pyIsSpace x = false) :
    collapseAux fl (x :: xs) = x :: collapseAux false xs := by
  simp [collapseAux, hx]

/-- Unfolding equation for the right strip. -/
theorem pyRStrip_cons (x : Char) (xs : List Char) :
    pyRStrip (x :: xs)
      = if pyRStrip xs = [] ∧ pyIsSpace x = true then [] else x :: pyRStrip xs := rfl

/-- `Char.ofNat` on a lowercase-letter code point keeps the code point. -/
theorem char_ofNat_toNat_lower (n : ℕ) (h1 : 97 ≤ n) (h2 : n ≤ 122) :
    (Char.ofNat n).toNat = n := by
  have hv : n.isValidChar := Or.inl (by omega)
  unfold Char.ofNat
  rw [dif_pos hv]
  rfl

/-- Character-wise lowercasing is idempotent. -/
theorem lowerChar_idem (c : Char) : lowerChar (lowerChar c) = lowerChar c := by
  by_cases h1 : 65 ≤ c.toNat ∧ c.toNat ≤ 90
  · have hL : lowerChar c = Char.ofNat (c.toNat + 32) := by
      unfold lowerChar
      rw [if_pos h1]
    have htn : (Char.ofNat (c.toNat + 32)).toNat = c.toNat + 32 :=
      char_ofNat_toNat_lower _ (by omega) (by omega)
    rw [hL]
    unfold lowerChar
    rw [if_neg (by rw [htn]; omega)]
  · have hL : lowerChar c = c := by
      unfold lowerChar
      rw [if_neg h1]
    rw [hL, hL]

/-- Members of a dropWhile are members of the original list. -/
theorem mem_of_mem_dropWhile_ws {c : Char} :
    ∀ (l : List Char), c ∈ l.dropWhile pyIsSpace → c ∈ l := by
  intro l hc
  induction l with
  | nil => simp at hc
  | cons x xs ih =>
    by_cases hx : pyIsSpace x = true
    · rw [List.dropWhile_cons_of_pos hx] at hc
      exact List.mem_cons_of_mem x (ih hc)
    · rw [List.dropWhile_cons_of_neg hx] at hc
      exact hc

/-- Members of the right-strip are members of the original list. -/
theorem mem_of_mem_pyRStrip {c : Char} :
    ∀ (l : List Char), c ∈ pyRStrip l → c ∈ l := by
  intro l hc
  induction l with
  | nil => simp [pyRStrip] at hc
  | cons x xs ih =>
    rw [pyRStrip_cons] at hc
    split at hc
    · simp at hc
    · rcases List.mem_cons.mp hc with rfl | hmem
      · exact List.mem_cons_self _ _
      · exact List.mem_cons_of_mem x (ih hmem)

/-- Members of the strip are members of the original list. -/
theorem mem_of_mem_pyStrip {c : Char} (l : List Char) (hc : c ∈ pyStrip l) :
    c ∈ l :=
  mem_of_mem_dropWhile_ws l (mem_of_mem_pyRStrip _ hc)

/-- Every character of the collapse output is an inserted space or an input
character. -/
theorem mem_collapseAux {c : Char} :
    ∀ (l : List Char) (fl : Bool), c ∈ collapseAux fl l → c = ' ' ∨ c ∈ l := by
  intro l
  induction l with
  | nil => intro fl hc; simp [collapseAux] at hc
  | cons x xs ih =>
    intro fl hc
    by_cases hx : pyIsSpace x = true
    · cases fl with
      | true =>
        rw [collapseAux_cons_ws_true x xs hx] at hc
        rcases ih true hc with h | h
        · exact Or.inl h
        · exact Or.inr (List.mem_cons_of_mem x h)
      | false =>
        rw [collapseAux_cons_ws_false x xs hx] at hc
        rcases List.mem_cons.mp hc with rfl | hmem
        · exact Or.inl rfl
        · rcases ih true hmem with h | h
          · exact Or.inl h
          · exact Or.inr (List.mem_cons_of_mem x h)
    · rw [collapseAux_cons_nonws fl x xs (by simpa using hx)] at hc
      rcases List.mem_cons.mp hc with rfl | hmem
      · exact Or.inr (List.mem_cons_self _ _)
      · rcases ih false hmem with h | h
        · exact Or.inl h
        · exact Or.inr (List.mem_cons_of_mem x h)

/-- Every character of the punctuation translation is a space or a
non-punctuation input character. -/
theorem mem_pyTranslate {c : Char} (l : List Char) (hc : c ∈ pyTranslate l) :
    c = ' ' ∨ (c ∈ l ∧ isPunct c = false) := by
  obtain ⟨x, hx, hxc⟩ := List.mem_map.mp hc
  by_cases hp : isPunct x = true
  · rw [if_pos hp] at hxc
    exact Or.inl hxc.symm
  · rw [if_neg hp] at hxc
    subst hxc
    exact Or.inr ⟨hx, by simpa using hp⟩

/-- Every character of a normalized text is lowercase-stable and
non-punctuation. -/
theorem normalize_char_fact (T : List Char) (c : Char) (hc : c ∈ normalize T) :
    lowerChar c = c ∧ isPunct c = false := by
  unfold normalize at hc
  split at hc
  · simp at hc
  · rcases mem_collapseAux _ false hc with rfl | hc2
    · exact ⟨by decide, by decide⟩
    · rcases mem_pyTranslate _ hc2 with rfl | ⟨hc3, hp⟩
      · exact ⟨by decide, by decide⟩
      · obtain ⟨e, _, rfl⟩ := List.mem_map.mp hc3
        exact ⟨lowerChar_idem e, hp⟩

/-- Every whitespace character of the collapse output is the ASCII space. -/
theorem collapseAux_ws_is_space :
    ∀ (l : List Char) (fl : Bool) (c : Char),
      c ∈ collapseAux fl l → pyIsSpace c = true → c = ' ' := by
  intro l
  induction l with
  | nil => intro fl c hc _; simp [collapseAux] at hc
  | cons x xs ih =>
    intro fl c hc hws
    by_cases hx : pyIsSpace x = true
    · cases fl with
      | true =>
        rw [collapseAux_cons_ws_true x xs hx] at hc
        exact ih true c hc hws
      | false =>
        rw [collapseAux_cons_ws_false x xs hx] at hc
        rcases List.mem_cons.mp hc with rfl | hmem
        · rfl
        · exact ih true c hmem hws
    · rw [collapseAux_cons_nonws fl x xs (by simpa using hx)] at hc
      rcases List.mem_cons.mp hc with rfl | hmem
      · exact absurd hws (by simpa using hx)
      · exact ih false c hmem hws

/-- In flag-true mode (just after a whitespace run) the collapse output never
starts with whitespace. -/
theorem collapseAux_true_head :
    ∀ (l : List Char) (d : Char) (t : List Char),
      collapseAux true l = d :: t → pyIsSpace d = false := by
  intro l
  induction l with
  | nil => intro d t hc; simp [collapseAux] at hc
  | cons x xs ih =>
    intro d t hc
    by_cases hx : pyIsSpace x = true
    · rw [collapseAux_cons_ws_true x xs hx] at hc
      exact ih d t hc
    · rw [collapseAux_cons_nonws true x xs (by simpa using hx)] at hc
      injection hc with h1 _
      rw [← h1]
      simpa using hx

/-- The tail of a `noTwoWs` list is `noTwoWs`. -/
theorem noTwoWs_tail (a : Char) (l : List Char) (h : noTwoWs (a :: l) = true) :
    noTwoWs l = true := by
  cases l with
  | nil => rfl
  | cons b t =>
    simp only [noTwoWs, Bool.and_eq_true] at h
    exact h.2

/-- The collapse output has no two adjacent whitespace characters. -/
theorem collapseAux_noTwoWs :
    ∀ (l : List Char) (fl : Bool), noTwoWs (collapseAux fl l) = true := by
  intro l
  induction l with
  | nil => intro fl; rfl
  | cons x xs ih =>
    intro fl
    by_cases hx : pyIsSpace x = true
    · cases fl with
      | true =>
        rw [collapseAux_cons_ws_true x xs hx]
        exact ih true
      | false =>
        rw [collapseAux_cons_ws_false x xs hx]
        cases hout : collapseAux true xs with
        | nil => rfl
        | cons d t =>
          have hd : pyIsSpace d = false := collapseAux_true_head xs d t hout
          have htail := ih true
          rw [hout] at htail
          simp [noTwoWs, hd, htail]
    · rw [collapseAux_cons_nonws fl x xs (by simpa using hx)]
      cases hout : collapseAux false xs with
      | nil => rfl
      | cons d t =>
        have htail := ih false
        rw [hout] at htail
        simp [noTwoWs, hx, htail]

/-- `dropWhile` preserves `noTwoWs`. -/
theorem noTwoWs_dropWhile (l : List Char) (h : noTwoWs l = true) :
    noTwoWs (l.dropWhile pyIsSpace) = true := by
  induction l with
  | nil => rfl
  | cons x xs ih =>
    by_cases hx : pyIsSpace x = true
    · rw [List.dropWhile_cons_of_pos hx]
      exact ih (noTwoWs_tail x xs h)
    · rw [List.dropWhile_cons_of_neg hx]
      exact h

/-- A non-empty right-strip starts with the original head and continues with
the right-strip of the tail. -/
theorem pyRStrip_cons_structure (xs : List Char) (d : Char) (t : List Char)
    (h : pyRStrip xs = d :: t) : ∃ xs', xs = d :: xs' ∧ t = pyRStrip xs' := by
  cases xs with
  | nil => simp [pyRStrip] at h
  | cons y ys =>
    rw [pyRStrip_cons] at h
    split at h
    · cases h
    · injection h with h1 h2
      exact ⟨ys, by rw [h1], h2.symm⟩

/-- The right-strip preserves `noTwoWs`. -/
theorem noTwoWs_pyRStrip (l : List Char) (h : noTwoWs l = true) :
    noTwoWs (pyRStrip l) = true := by
  induction l with
  | nil => rfl
  | cons x xs ih =>
    rw [pyRStrip_cons]
    split
    · rfl
    · cases hout : pyRStrip xs with
      | nil => rfl
      | cons d t =>
        obtain ⟨xs', hxs, _⟩ := pyRStrip_cons_structure xs d t hout
        have hpair : (!(pyIsSpace x && pyIsSpace d)) = true := by
          rw [hxs] at h
          simp only [noTwoWs, Bool.and_eq_true] at h
          exact h.1
        have htail := ih (noTwoWs_tail x xs h)
        rw [hout] at htail
        simp only [noTwoWs, Bool.and_eq_true]
        exact ⟨hpair, htail⟩

/-- On a list whose whitespace is only single ASCII spaces with no two
adjacent, the collapse is the identity (flag false; flag true additionally
needs a non-whitespace head). -/
theorem collapseAux_fix :
    ∀ (l : List Char), (∀ c ∈ l, pyIsSpace c = true → c = ' ') → noTwoWs l = true →
      (collapseAux false l = l
       ∧ ((∀ d t, l = d :: t → pyIsSpace d = false) → collapseAux true l = l)) := by
  intro l
  induction l with
  | nil => exact fun _ _ => ⟨rfl, fun _ => rfl⟩
  | cons x xs ih =>
    intro hall hnt
    have hallxs : ∀ c ∈ xs, pyIsSpace c = true → c = ' ' :=
      fun c hc => hall c (List.mem_cons_of_mem x hc)
    have hntxs := noTwoWs_tail x xs hnt
    by_cases hx : pyIsSpace x = true
    · have hx' : x = ' ' := hall x (List.mem_cons_self _ _) hx
      have hxshead : ∀ d t, xs = d :: t → pyIsSpace d = false := by
        intro d t hdt
        have h1 : (!(pyIsSpace x && pyIsSpace d)) = true := by
          rw [hdt] at hnt
          simp only [noTwoWs, Bool.and_eq_true] at hnt
          exact hnt.1
        rw [hx] at h1
        simpa using h1
      have hxs : collapseAux true xs = xs := (ih hallxs hntxs).2 hxshead
      constructor
      · rw [collapseAux_cons_ws_false x xs hx, hxs, hx']
      · intro hhead
        exact absurd hx (by simpa using hhead x xs rfl)
    · have hxs : collapseAux false xs = xs := (ih hallxs hntxs).1
      constructor
      · rw [collapseAux_cons_nonws false x xs (by simpa using hx), hxs]
      · intro _
        rw [collapseAux_cons_nonws true x xs (by simpa using hx), hxs]

/-- Translation is the identity on punctuation-free text. -/
theorem pyTranslate_fix :
    ∀ (l : List Char), (∀ c ∈ l, isPunct c = false) → pyTranslate l = l := by
  intro l
  induction l with
  | nil => intro _; rfl
  | cons x xs ih =>
    intro hl
    have hx := hl x (List.mem_cons_self _ _)
    show (if isPunct x then ' ' else x) :: pyTranslate xs = x :: xs
    rw [ih (fun c hc => hl c (List.mem_cons_of_mem x hc))]
    simp [hx]

/-- Lowercasing is the identity on lowercase-stable text. -/
theorem map_lowerChar_fix :
    ∀ (l : List Char), (∀ c ∈ l, lowerChar c = c) → l.map lowerChar = l := by
  intro l
  induction l with
  | nil => intro _; rfl
  | cons x xs ih =>
    intro hl
    rw [List.map_cons, hl x (List.mem_cons_self _ _),
      ih (fun c hc => hl c (List.mem_cons_of_mem x hc))]

/-- The non-empty branch of `normalize`. -/
theorem normalize_ne_nil_form (l : List Char) (h : l ≠ []) :
    normalize l = collapseWs (pyTranslate ((pyStrip l).map lowerChar)) := by
  unfold normalize
  rw [if_neg h]

/-- C5 counterexample: `normalize` is not idempotent. For `"!a"` the strip
happens before the punctuation `!` is turned into a space, so
`normalize "!a" = " a"` keeps a leading space that a second pass strips. -/
theorem claim5_normalize_not_idempotent :
    normalize (normalize "!a".toList) ≠ normalize "!a".toList := by
  decide

/-- C5 amended: a second `normalize` pass is exactly a strip of the first:
for every text `T`, `normalize (normalize T) = pyStrip (normalize T)`
(lowercasing, punctuation replacement and whitespace collapse are all the
identity on a normalized text, whose only remaining edge effect is a possible
leading/trailing space left by punctuation at the ends). Idempotence holds
exactly when `normalize T` carries no leading or trailing space. -/
theorem claim5_normalize_double_eq_strip (T : List Char) :
    normalize (normalize T) = pyStrip (normalize T) := by
  by_cases hT : normalize T = []
  · rw [hT]
    rfl
  · have hTne : T ≠ [] := by
      intro hTeq
      apply hT
      rw [hTeq]
      rfl
    have hform := normalize_ne_nil_form T hTne
    have hSfact : ∀ c ∈ pyStrip (normalize T), lowerChar c = c ∧ isPunct c = false :=
      fun c hc => normalize_char_fact T c (mem_of_mem_pyStrip _ hc)
    have hmap : (pyStrip (normalize T)).map lowerChar = pyStrip (normalize T) :=
      map_lowerChar_fix _ (fun c hc => (hSfact c hc).1)
    have htr : pyTranslate (pyStrip (normalize T)) = pyStrip (normalize T) :=
      pyTranslate_fix _ (fun c hc => (hSfact c hc).2)
    have hallWs : ∀ c ∈ pyStrip (normalize T), pyIsSpace c = true → c = ' ' := by
      intro c hc hws
      have hcnT : c ∈ normalize T := mem_of_mem_pyStrip _ hc
      rw [hform] at hcnT
      exact collapseAux_ws_is_space _ false c hcnT hws
    have hnt : noTwoWs (pyStrip (normalize T)) = true := by
      unfold pyStrip
      apply noTwoWs_pyRStrip
      apply noTwoWs_dropWhile
      rw [hform]
      exact collapseAux_noTwoWs _ false
    rw [normalize_ne_nil_form (normalize T) hT, hmap, htr]
    exact (collapseAux_fix _ hallWs hnt).1

end NormalizeIdempotence

section FallbackMutator

/-- A successful `isPrefixOf` yields an append decomposition. -/
theorem isPrefixOf_decomp (p s : List Char) (h : p.isPrefixOf s = true) :
    ∃ t, s = p ++ t := by
  have hpre : p <+: s := by
    simpa using h
  obtain ⟨t, ht⟩ := hpre
  exact ⟨t, ht.symm⟩

/-- Replacement of a pattern that never occurs is the identity. -/
theorem replaceAllAux_no_match (p r : List Char) :
    ∀ (fuel : ℕ) (s : List Char), containsSeq p s = false →
      replaceAllAux p r fuel s = s := by
  intro fuel
  induction fuel with
  | zero =>
    intro s _
    cases s with
    | nil => rfl
    | cons c rest => rfl
  | succ fuel ih =>
    intro s hs
    cases s with
    | nil => rfl
    | cons c rest =>
      simp only [containsSeq, Bool.or_eq_false_iff] at hs
      have hcond : ¬(p ≠ [] ∧ p.isPrefixOf (c :: rest) = true) := by
        rintro ⟨_, hpre⟩
        rw [hs.1] at hpre
        cases hpre
      simp only [replaceAllAux]
      rw [if_neg hcond, ih rest hs.2]

/-- `replaceAll` of a pattern that never occurs is the identity. -/
theorem replaceAll_no_match (p r s : List Char) (hs : containsSeq p s = false) :
    replaceAll p r s = s :=
  replaceAllAux_no_match p r s.length s hs

/-- If the replacement string avoids `χ`, replacing never increases `χ`'s
count. -/
theorem replaceAllAux_count_le (p r : List Char) (χ : Char) (hr : χ ∉ r) :
    ∀ (fuel : ℕ) (s : List Char),
      (replaceAllAux p r fuel s).count χ ≤ s.count χ := by
  intro fuel
  induction fuel with
  | zero =>
    intro s
    cases s with
    | nil => exact le_refl _
    | cons c rest => exact le_refl _
  | succ fuel ih =>
    intro s
    cases s with
    | nil => exact le_refl _
    | cons c rest =>
      by_cases hcond : p ≠ [] ∧ p.isPrefixOf (c :: rest) = true
      · obtain ⟨t, hst⟩ := isPrefixOf_decomp p _ hcond.2
        simp only [replaceAllAux]
        rw [if_pos hcond, hst, List.drop_left, List.count_append]
        have h0 : r.count χ = 0 := List.count_eq_zero.mpr hr
        have h1 := ih t
        have h2 : (p ++ t).count χ = p.count χ + t.count χ := List.count_append ..
        omega
      · simp only [replaceAllAux]
        rw [if_neg hcond]
        simp only [List.count_cons]
        have := ih rest
        omega

/-- If `χ` occurs in the pattern but not in the replacement, and the pattern
occurs in `s`, replacing strictly decreases `χ`'s count (with enough fuel to
reach the occurrence). -/
theorem replaceAllAux_count_lt (p r : List Char) (χ : Char)
    (hp : χ ∈ p) (hr : χ ∉ r) :
    ∀ (fuel : ℕ) (s : List Char), s.length ≤ fuel → containsSeq p s = true →
      (replaceAllAux p r fuel s).count χ < s.count χ := by
  intro fuel
  induction fuel with
  | zero =>
    intro s hlen hcont
    have hs : s = [] := List.length_eq_zero.mp (Nat.le_zero.mp hlen)
    subst hs
    simp only [containsSeq, List.isEmpty_iff] at hcont
    subst hcont
    cases hp
  | succ fuel ih =>
    intro s hlen hcont
    cases s with
    | nil =>
      simp only [containsSeq, List.isEmpty_iff] at hcont
      subst hcont
      cases hp
    | cons c rest =>
      by_cases hcond : p ≠ [] ∧ p.isPrefixOf (c :: rest) = true
      · obtain ⟨t, hst⟩ := isPrefixOf_decomp p _ hcond.2
        simp only [replaceAllAux]
        rw [if_pos hcond, hst, List.drop_left, List.count_append]
        have h0 : r.count χ = 0 := List.count_eq_zero.mpr hr
        have h1 := replaceAllAux_count_le p r χ hr fuel t
        have h2 : (p ++ t).count χ = p.count χ + t.count χ := List.count_append ..
        have h3 : 0 < p.count χ := List.count_pos_iff.mpr hp
        omega
      · have hpne : p ≠ [] := by
          intro he
          subst he
          cases hp
        have hpre : p.isPrefixOf (c :: rest) = false := by
          by_contra hh
          exact hcond ⟨hpne, by simpa using hh⟩
        have hrest : containsSeq p rest = true := by
          simp only [containsSeq, Bool.or_eq_true] at hcont
          rcases hcont with hc1 | hc2
          · rw [hpre] at hc1
            cases hc1
          · exact hc2
        simp only [replaceAllAux]
        rw [if_neg hcond]
        simp only [List.count_cons]
        have hlen' : rest.length ≤ fuel := by
          simp only [List.length_cons] at hlen
          omega
        have := ih rest hlen' hrest
        omega

/-- Unfolding equation for the substitution fold. -/
theorem applySubs_cons (e : List Char × List Char)
    (rest : List (List Char × List Char)) (t : List Char) :
    applySubs (e :: rest) t = applySubs rest (replaceAll e.1 e.2 t) := rfl

/-- If no applied pattern occurs in the text, the mutation is the identity. -/
theorem applySubs_no_match (subs : List (List Char × List Char)) (C : List Char)
    (hno : ∀ e ∈ subs, containsSeq e.1 C = false) : applySubs subs C = C := by
  induction subs with
  | nil => rfl
  | cons e rest ih =>
    rw [applySubs_cons, replaceAll_no_match _ _ _ (hno e (List.mem_cons_self _ _))]
    exact ih (fun e' he' => hno e' (List.mem_cons_of_mem e he'))

/-- If every applied replacement string avoids `χ`, the mutation never
increases `χ`'s count. -/
theorem applySubs_count_le (subs : List (List Char × List Char)) (χ : Char)
    (hχ : ∀ e ∈ subs, χ ∉ e.2) :
    ∀ t, (applySubs subs t).count χ ≤ t.count χ := by
  induction subs with
  | nil => exact fun t => le_refl _
  | cons e rest ih =>
    intro t
    rw [applySubs_cons]
    exact le_trans
      (ih (fun e' he' => hχ e' (List.mem_cons_of_mem e he')) _)
      (replaceAllAux_count_le e.1 e.2 χ (hχ e (List.mem_cons_self _ _)) _ t)

/-- Each substitution-table entry has a marker character. -/
theorem markers_exist :
    ∀ e ∈ variation_patterns, ∃ χ, patternMarker e χ := by
  intro e he
  simp only [variation_patterns, List.mem_cons, List.not_mem_nil, or_false] at he
  rcases he with rfl | rfl | rfl | rfl | rfl | rfl
  · exact ⟨'実', by unfold patternMarker; decide⟩
  · exact ⟨'っ', by unfold patternMarker; decide⟩
  · exact ⟨'信', by unfold patternMarker; decide⟩
  · exact ⟨'調', by unfold patternMarker; decide⟩
  · exact ⟨'示', by unfold patternMarker; decide⟩
  · exact ⟨'%', by unfold patternMarker; decide⟩

/-- If some applied table entry's pattern occurs in the text, the mutation
strictly decreases the count of that entry's marker character, so the output
differs from the input. -/
theorem applySubs_match_strict (subs : List (List Char × List Char)) (C : List Char)
    (hsub : ∀ e ∈ subs, e ∈ variation_patterns)
    (hm : ∃ e ∈ subs, containsSeq e.1 C = true) :
    ∃ χ, pyIsSpace χ = false ∧ (applySubs subs C).count χ < C.count χ := by
  induction subs with
  | nil => simp at hm
  | cons e rest ih =>
    by_cases hc : containsSeq e.1 C = true
    · obtain ⟨χ, hmk⟩ := markers_exist e (hsub e (List.mem_cons_self _ _))
      refine ⟨χ, hmk.2.1, ?_⟩
      have hstep : (replaceAll e.1 e.2 C).count χ < C.count χ :=
        replaceAllAux_count_lt e.1 e.2 χ hmk.1
          (hmk.2.2.1 e (hsub e (List.mem_cons_self _ _))) C.length C (le_refl _) hc
      have hrest : (applySubs rest (replaceAll e.1 e.2 C)).count χ
          ≤ (replaceAll e.1 e.2 C).count χ :=
        applySubs_count_le rest χ
          (fun e' he' => hmk.2.2.1 e' (hsub e' (List.mem_cons_of_mem e he'))) _
      rw [applySubs_cons]
      omega
    · have hCeq : replaceAll e.1 e.2 C = C :=
        replaceAll_no_match _ _ _ (by simpa using hc)
      have hm' : ∃ e' ∈ rest, containsSeq e'.1 C = true := by
        rcases hm with ⟨e', he', hce'⟩
        rcases List.mem_cons.mp he' with rfl | hmem
        · exact absurd hce' hc
        · exact ⟨e', hmem, hce'⟩
      rw [applySubs_cons, hCeq]
      exact ih (fun e' he' => hsub e' (List.mem_cons_of_mem e he')) hm'

/-- Unfolding equations for `pySplitAux`. -/
theorem pySplitAux_nil (acc : List Char) :
    pySplitAux [] acc = if acc = [] then [] else [acc.reverse] := rfl

theorem pySplitAux_cons_ws_nil (c : Char) (rest : List Char)
    (hc : pyIsSpace c = true) :
    pySplitAux (c :: rest) [] = pySplitAux rest [] := by
  simp [pySplitAux, hc]

theorem pySplitAux_cons_ws (c : Char) (rest acc : List Char)
    (hc : pyIsSpace c = true) (hacc : acc ≠ []) :
    pySplitAux (c :: rest) acc = acc.reverse :: pySplitAux rest [] := by
  simp [pySplitAux, hc, hacc]

theorem pySplitAux_cons_nonws (c : Char) (rest acc : List Char)
    (hc : pyIsSpace c = false) :
    pySplitAux (c :: rest) acc = pySplitAux rest (c :: acc) := by
  simp [pySplitAux, hc]

/-- Joining a word in front adds its count (for non-space characters). -/
theorem joinSpace_cons_count (χ : Char) (hχ : χ ≠ ' ') (w : List Char)
    (L : List (List Char)) :
    (joinSpace (w :: L)).count χ = w.count χ + (joinSpace L).count χ := by
  cases L with
  | nil => simp [joinSpace]
  | cons w2 L' =>
    show (w ++ ' ' :: joinSpace (w2 :: L')).count χ = _
    rw [List.count_append, List.count_cons]
    have h0 : (' ' == χ) = false := by
      apply beq_eq_false_iff_ne.mpr
      intro he
      exact hχ he.symm
    rw [h0]
    simp

/-- Splitting and rejoining never increases the count of a non-whitespace
character. -/
theorem pySplitAux_count_le (χ : Char) (hws : pyIsSpace χ = false) :
    ∀ (s acc : List Char),
      (joinSpace (pySplitAux s acc)).count χ ≤ acc.count χ + s.count χ := by
  have hχ : χ ≠ ' ' := by
    intro he
    rw [he] at hws
    cases hws
  intro s
  induction s with
  | nil =>
    intro acc
    rw [pySplitAux_nil]
    split
    · simp [joinSpace]
    · show (joinSpace [acc.reverse]).count χ ≤ _
      simp [joinSpace, List.count_reverse]
  | cons c rest ih =>
    intro acc
    by_cases hc : pyIsSpace c = true
    · have hcχ : (c == χ) = false := by
        apply beq_eq_false_iff_ne.mpr
        intro he
        rw [he, hws] at hc
        cases hc
      by_cases hacc : acc = []
      · subst hacc
        rw [pySplitAux_cons_ws_nil c rest hc]
        have h1 := ih []
        simp only [List.count_nil, Nat.zero_add] at h1
        simp only [List.count_nil, Nat.zero_add, List.count_cons, hcχ]
        simpa using h1
      · rw [pySplitAux_cons_ws c rest acc hc hacc,
          joinSpace_cons_count χ hχ, List.count_reverse]
        have h1 := ih []
        simp only [List.count_nil, Nat.zero_add] at h1
        simp only [List.count_cons, hcχ]
        omega
    · rw [pySplitAux_cons_nonws c rest acc (by simpa using hc)]
      have h1 := ih (c :: acc)
      simp only [List.count_cons] at h1 ⊢
      omega

/-- The sanitize step never increases the count of a non-whitespace
character. -/
theorem sanitize_count_le (χ : Char) (hws : pyIsSpace χ = false)
    (t : List Char) (limit : ℕ) :
    (sanitize_and_limit t limit).count χ ≤ t.count χ := by
  unfold sanitize_and_limit
  split
  · simp
  · calc ((joinSpace (pySplit t)).take limit).count χ
        ≤ (joinSpace (pySplit t)).count χ :=
          (List.take_sublist _ _).count_le χ
      _ ≤ ([] : List Char).count χ + t.count χ := pySplitAux_count_le χ hws t []
      _ = t.count χ := by simp

end FallbackMutator

section GenerationLoop

/-- Unfolding equation: no attempts left. -/
theorem genLoopAux_zero (h : List Char → ℕ) (gen : ℕ → List Char)
    (index : List HistoryRecord) (attempt : ℕ) (last : List Char) :
    genLoopAux h gen index 0 attempt last = ⟨[], last, attempt - 1⟩ := rfl

/-- Unfolding equation: one more attempt. -/
theorem genLoopAux_succ (h : List Char → ℕ) (gen : ℕ → List Char)
    (index : List HistoryRecord) (remaining attempt : ℕ) (last : List Char) :
    genLoopAux h gen index (remaining + 1) attempt last
      = (if (most_similar_info h (sanitize_and_limit (gen attempt) 140) index).1 < JACCARD_TH
            ∧ HAMMING_TH < (most_similar_info h (sanitize_and_limit (gen attempt) 140) index).2.1
         then ⟨sanitize_and_limit (gen attempt) 140, sanitize_and_limit (gen attempt) 140, attempt⟩
         else genLoopAux h gen index remaining (attempt + 1)
                (sanitize_and_limit (gen attempt) 140)) := rfl

/-- If every attempt in the window is rejected, the loop exhausts all of them
and exits with no chosen text, carrying the last generated text. -/
theorem genLoopAux_all_rejected (h : List Char → ℕ) (gen : ℕ → List Char)
    (index : List HistoryRecord) :
    ∀ (remaining attempt : ℕ) (last : List Char),
      (∀ i, attempt ≤ i → i < attempt + remaining →
        ¬((most_similar_info h (sanitize_and_limit (gen i) 140) index).1 < JACCARD_TH
          ∧ HAMMING_TH < (most_similar_info h (sanitize_and_limit (gen i) 140) index).2.1)) →
      1 ≤ remaining →
      genLoopAux h gen index remaining attempt last
        = ⟨[], sanitize_and_limit (gen (attempt + remaining - 1)) 140,
            attempt + remaining - 1⟩ := by
  intro remaining
  induction remaining with
  | zero =>
    intro attempt last _ h1
    omega
  | succ rem ih =>
    intro attempt last hrej _
    rw [genLoopAux_succ]
    rw [if_neg (hrej attempt (le_refl _) (by omega))]
    cases rem with
    | zero =>
      rw [genLoopAux_zero]
      have h1 : attempt + 1 - 1 = attempt := by omega
      rw [h1]
    | succ rem' =>
      rw [ih (attempt + 1) _ (fun i hi1 hi2 => hrej i (by omega) (by omega)) (by omega)]
      have h3 : attempt + 1 + (rem' + 1) - 1 = attempt + (rem' + 1 + 1) - 1 := by omega
      rw [h3]

/-- With a one-record index holding the candidate's own normalized text and a
generator that keeps producing that candidate, the loop rejects all
`MAX_ATTEMPTS` attempts and the generate phase falls through to the mutator. -/
theorem mainGenerate_fallback (h : List Char → ℕ) (C : List Char)
    (gen : ℕ → List Char)
    (hgen : ∀ i, 1 ≤ i → i ≤ MAX_ATTEMPTS → sanitize_and_limit (gen i) 140 = C)
    (hne : char_ngrams (normalize C) 2 ≠ ∅) :
    genLoop h gen [⟨normalize C, simhash h (char_ngrams (normalize C) 2)⟩]
        = ⟨[], C, MAX_ATTEMPTS⟩
    ∧ ∀ subs, mainGenerate h gen subs
          [⟨normalize C, simhash h (char_ngrams (normalize C) 2)⟩]
        = sanitize_and_limit (applySubs subs C) 140 := by
  have h5 : MAX_ATTEMPTS = 5 := rfl
  have hrej : ∀ i, 1 ≤ i → i < 1 + MAX_ATTEMPTS →
      ¬((most_similar_info h (sanitize_and_limit (gen i) 140)
            [⟨normalize C, simhash h (char_ngrams (normalize C) 2)⟩]).1 < JACCARD_TH
        ∧ HAMMING_TH < (most_similar_info h (sanitize_and_limit (gen i) 140)
            [⟨normalize C, simhash h (char_ngrams (normalize C) 2)⟩]).2.1) := by
    intro i hi1 hi2
    rw [hgen i hi1 (by omega)]
    rw [msi_single_grams_equal h C (normalize C) rfl hne]
    rintro ⟨h1, _⟩
    rw [JACCARD_TH] at h1
    norm_num at h1
  have hloop := genLoopAux_all_rejected h gen
    [⟨normalize C, simhash h (char_ngrams (normalize C) 2)⟩]
    MAX_ATTEMPTS 1 [] hrej (by omega)
  have harith : 1 + MAX_ATTEMPTS - 1 = MAX_ATTEMPTS := by omega
  rw [harith, hgen MAX_ATTEMPTS (by omega) (le_refl _)] at hloop
  have hloopG : genLoop h gen [⟨normalize C, simhash h (char_ngrams (normalize C) 2)⟩]
      = ⟨[], C, MAX_ATTEMPTS⟩ := hloop
  refine ⟨hloopG, ?_⟩
  intro subs
  simp only [mainGenerate, hloopG]
  rw [if_pos trivial]

/-- C6 counterexample: the claim's "differs from C in at least one substituted
token if any entry of the substitution table matches C" fails on the code,
because the mutator applies only the randomly sampled entries (two of six):
for the candidate `"実は"` — matched by the table entry `実は → 意外にも` —
a run whose sample consists of the two other entries
`知ってました → ご存知でした` and `信じられない → 驚くべき` leaves the final
output exactly equal to `C` even though a table entry matches. -/
theorem claim6_unsampled_entry_no_change :
    (∃ e ∈ variation_patterns, containsSeq e.1 "実は".toList = true)
    ∧ mainGenerate (fun _ => 0) (fun _ => "実は".toList)
        [("知ってました".toList, "ご存知でした".toList),
         ("信じられない".toList, "驚くべき".toList)]
        [⟨normalize "実は".toList,
          simhash (fun _ => 0) (char_ngrams (normalize "実は".toList) 2)⟩]
      = "実は".toList := by
  constructor
  · exact ⟨("実は".toList, "意外にも".toList), by decide, by decide⟩
  · have hmain := (mainGenerate_fallback (fun _ => 0) "実は".toList
      (fun _ => "実は".toList)
      (fun i _ _ => by
        show sanitize_and_limit "実は".toList 140 = "実は".toList
        decide)
      (char_ngrams_ne_empty _ 2 (by decide))).2
      [("知ってました".toList, "ご存知でした".toList),
       ("信じられない".toList, "驚くべき".toList)]
    rw [hmain]
    decide

/-- C6 amended: with the index holding exactly the normalized form of `C`
(non-empty shingles) and every attempt resubmitting `C` (as its sanitized
form), every one of the `MAX_ATTEMPTS` attempts is rejected (Jaccard 1.0 ≥
0.80), the fallback mutator runs on `C`, and the final output differs from
`C` whenever one of the RANDOMLY SAMPLED (applied) substitution entries
matches `C`, and equals `C` when none of the applied entries matches — an
unsampled table entry matching `C` forces nothing. -/
theorem claim6_exhaustion_and_mutation (h : List Char → ℕ) (C : List Char)
    (gen : ℕ → List Char) (subs : List (List Char × List Char))
    (hC : sanitize_and_limit C 140 = C)
    (hgen : ∀ i, 1 ≤ i → i ≤ MAX_ATTEMPTS → sanitize_and_limit (gen i) 140 = C)
    (hne : char_ngrams (normalize C) 2 ≠ ∅)
    (hsub : ∀ e ∈ subs, e ∈ variation_patterns) :
    genLoop h gen [⟨normalize C, simhash h (char_ngrams (normalize C) 2)⟩]
        = ⟨[], C, MAX_ATTEMPTS⟩
    ∧ ((∃ e ∈ subs, containsSeq e.1 C = true) →
        mainGenerate h gen subs
            [⟨normalize C, simhash h (char_ngrams (normalize C) 2)⟩] ≠ C)
    ∧ ((∀ e ∈ subs, containsSeq e.1 C = false) →
        mainGenerate h gen subs
            [⟨normalize C, simhash h (char_ngrams (normalize C) 2)⟩] = C) := by
  obtain ⟨hloop, hmain⟩ := mainGenerate_fallback h C gen hgen hne
  refine ⟨hloop, ?_, ?_⟩
  · intro hm heq
    obtain ⟨χ, hχws, hχlt⟩ := applySubs_match_strict subs C hsub hm
    have hs := sanitize_count_le χ hχws (applySubs subs C) 140
    rw [hmain subs] at heq
    rw [heq] at hs
    omega
  · intro hno
    rw [hmain subs, applySubs_no_match subs C hno, hC]

/-- Witness for C6 at a concrete input: sample containing the matching entry
`実は → 意外にも` — the output differs from the candidate. -/
theorem claim6_witness :
    mainGenerate (fun _ => 0) (fun _ => "実は".toList)
        [("実は".toList, "意外にも".toList),
         ("知ってました".toList, "ご存知でした".toList)]
        [⟨normalize "実は".toList,
          simhash (fun _ => 0) (char_ngrams (normalize "実は".toList) 2)⟩]
      ≠ "実は".toList :=
  (claim6_exhaustion_and_mutation (fun _ => 0) "実は".toList (fun _ => "実は".toList)
      [("実は".toList, "意外にも".toList), ("知ってました".toList, "ご存知でした".toList)]
      (by decide)
      (fun i _ _ => by
        show sanitize_and_limit "実は".toList 140 = "実は".toList
        decide)
      (char_ngrams_ne_empty _ 2 (by decide))
      (by decide)).2.1
    ⟨("実は".toList, "意外にも".toList), by decide, by decide⟩

end GenerationLoop

end AutoPost
